import Mathlib

/-!
Verification of the FERRE driver pipeline of the astra repository.

The definitions below are a shallow embedding of the Python source:

* `Astra.Ferre.to_name` / `Astra.Ferre.from_name` embed the name codec of
  `python/astra/contrib/ferre/base.py` (`Ferre.to_name`, `Ferre.from_name`).
  Strings are modelled as `List Char`; the non-negative integer slots are `Nat`;
  the one-decimal fixed-point signal-to-noise field is modelled as a `Nat`
  number of tenths (`snr = t / 10`), which is exactly the set of values the
  Python format `{snr:.1f}` writes without rounding.

Later sections embed the output reconciliation, the completeness forcing, the
bitmask flagger, the bounded retry, the grid selector, the spike suppression
and the initial-parameter shape dispatch from the same repository.
-/

namespace Astra

/-- The decimal digit characters, as Python's `str` of an integer produces
them.  Values `d ≥ 10` never occur (all call sites pass `n % 10`). -/
def digitChar (d : Nat) : Char :=
  match d with
  | 0 => '0' | 1 => '1' | 2 => '2' | 3 => '3' | 4 => '4'
  | 5 => '5' | 6 => '6' | 7 => '7' | 8 => '8' | 9 => '9'
  | _ => '*'

/-- Numeric value of a decimal digit character (`int` applied to one digit). -/
def digitVal (c : Char) : Nat := c.toNat - 48

/-- Big-endian decimal digits of `n`, as Python's `str(n)` / `f"{n:.0f}"`
renders a non-negative integer.  The first argument is recursion fuel; every
call site passes `fuel ≥ number of digits` (we use `n` itself, since
`n < 10 ^ n`). -/
def natToCharsAux : Nat → Nat → List Char
  | 0, _ => []
  | fuel + 1, n =>
    if n = 0 then [] else natToCharsAux fuel (n / 10) ++ [digitChar (n % 10)]

/-- Python `str(n)` for a non-negative integer `n`. -/
def natToChars (n : Nat) : List Char :=
  if n = 0 then ['0'] else natToCharsAux n n

/-- Value of a big-endian decimal digit string (the loop inside `int(...)`). -/
def charsToNat (l : List Char) : Nat :=
  l.foldl (fun acc c => 10 * acc + digitVal c) 0

/-- Python `int(s)` restricted to plain digit strings, the only shapes the
codec ever produces for the slot fields; anything else raises in Python and is
`none` here. -/
def strToNat (l : List Char) : Option Nat :=
  if l.isEmpty then none
  else if l.all Char.isDigit then some (charsToNat l) else none

/-- Python `s.split(sep)` for a single-character separator: always returns at
least one (possibly empty) field. -/
def splitOnChar (c : Char) : List Char → List (List Char)
  | [] => [[]]
  | x :: xs =>
    if x = c then [] :: splitOnChar c xs
    else
      match splitOnChar c xs with
      | [] => [[x]]
      | y :: ys => (x :: y) :: ys

/-- Python `sep.join(parts)`. -/
def joinWith (sep : List Char) : List (List Char) → List Char
  | [] => []
  | [x] => x
  | x :: xs => x ++ sep ++ joinWith sep xs

/-- The one-decimal fixed-point field `f"{snr:.1f}"`, for `snr = t / 10`
tenths: integer part, a point, one fractional digit. -/
def snrChars (t : Nat) : List Char :=
  natToChars (t / 10) ++ '.' :: [digitChar (t % 10)]

/-- Python `float(s)` restricted to the one-decimal fixed-point grammar
`{snr:.1f}` actually produced by the codec, returning the value in tenths;
other shapes are not produced by `to_name` and are `none` here. -/
def parseSnr (s : List Char) : Option Nat :=
  match splitOnChar '.' s with
  | [ip, fp] =>
    match strToNat ip, strToNat fp with
    | some a, some b => if fp.length = 1 then some (10 * a + b) else none
    | _, _ => none
  | _ => none

namespace Ferre

/-- `Ferre.to_name` (contrib/ferre/base.py):
`f"{i:.0f}_{j:.0f}_{k:.0f}_{l:.0f}_{snr:.1f}_{obj}"`. -/
def to_name (i j k l t : Nat) (obj : List Char) : List Char :=
  natToChars i ++ '_' :: natToChars j ++ '_' :: natToChars k ++ '_' ::
    natToChars l ++ '_' :: snrChars t ++ '_' :: obj

/-- `Ferre.from_name` (contrib/ferre/base.py):
`i, j, k, l, snr, *obj = name.split("_")` followed by integer/float parsing
and `"_".join(obj)`.  Python raises when fewer than five fields are present or
a numeric field does not parse; those cases are `none` here. -/
def from_name (name : List Char) :
    Option (Nat × Nat × Nat × Nat × Nat × List Char) :=
  match splitOnChar '_' name with
  | fi :: fj :: fk :: fl :: fsnr :: fobj =>
    match strToNat fi, strToNat fj, strToNat fk, strToNat fl, parseSnr fsnr with
    | some i, some j, some k, some l, some t =>
      some (i, j, k, l, t, joinWith ['_'] fobj)
    | _, _, _, _, _ => none
  | _ => none

end Ferre

/-! ### Facts about the decimal rendering -/

lemma digitVal_digitChar {d : Nat} (h : d < 10) : digitVal (digitChar d) = d := by
  interval_cases d <;> rfl

lemma isDigit_digitChar {d : Nat} (h : d < 10) : (digitChar d).isDigit = true := by
  interval_cases d <;> rfl

lemma natToCharsAux_zero (fuel : Nat) : natToCharsAux fuel 0 = [] := by
  cases fuel <;> simp [natToCharsAux]

lemma charsToNat_append_digit (l : List Char) (c : Char) :
    charsToNat (l ++ [c]) = 10 * charsToNat l + digitVal c := by
  simp [charsToNat, List.foldl_append]

lemma charsToNat_natToCharsAux :
    ∀ fuel n, n < 10 ^ fuel → charsToNat (natToCharsAux fuel n) = n := by
  intro fuel
  induction fuel with
  | zero =>
    intro n hn
    simp at hn
    subst hn
    rfl
  | succ fuel ih =>
    intro n hn
    by_cases h0 : n = 0
    · subst h0; rfl
    · have hdiv : n / 10 < 10 ^ fuel := by
        rw [Nat.div_lt_iff_lt_mul (by norm_num)]
        calc n < 10 ^ (fuel + 1) := hn
        _ = 10 ^ fuel * 10 := by ring
      simp only [natToCharsAux, h0, if_false]
      rw [charsToNat_append_digit, ih _ hdiv,
        digitVal_digitChar (Nat.mod_lt n (by norm_num))]
      omega

lemma charsToNat_natToChars (n : Nat) : charsToNat (natToChars n) = n := by
  by_cases h0 : n = 0
  · subst h0; rfl
  · simp only [natToChars, h0, if_false]
    exact charsToNat_natToCharsAux n n (Nat.lt_pow_self (by norm_num) n)

lemma isDigit_of_mem_natToCharsAux :
    ∀ fuel n c, c ∈ natToCharsAux fuel n → c.isDigit = true := by
  intro fuel
  induction fuel with
  | zero => intro n c hc; simp [natToCharsAux] at hc
  | succ fuel ih =>
    intro n c hc
    by_cases h0 : n = 0
    · subst h0; simp [natToCharsAux] at hc
    · simp only [natToCharsAux, h0, if_false, List.mem_append,
        List.mem_singleton] at hc
      rcases hc with hc | hc
      · exact ih _ _ hc
      · subst hc; exact isDigit_digitChar (Nat.mod_lt n (by norm_num))

lemma isDigit_of_mem_natToChars {n : Nat} {c : Char}
    (hc : c ∈ natToChars n) : c.isDigit = true := by
  by_cases h0 : n = 0
  · subst h0; simp [natToChars] at hc; subst hc; rfl
  · simp only [natToChars, h0, if_false] at hc
    exact isDigit_of_mem_natToCharsAux n n c hc

lemma natToChars_ne_nil (n : Nat) : natToChars n ≠ [] := by
  by_cases h0 : n = 0
  · subst h0; simp [natToChars]
  · simp only [natToChars, h0, if_false]
    cases n with
    | zero => exact absurd rfl h0
    | succ m => simp [natToCharsAux, h0]

lemma strToNat_natToChars (n : Nat) : strToNat (natToChars n) = some n := by
  have hne := natToChars_ne_nil n
  have hdig : (natToChars n).all Char.isDigit = true := by
    rw [List.all_eq_true]
    intro c hc
    exact isDigit_of_mem_natToChars hc
  simp [strToNat, List.isEmpty_iff, hne, hdig, charsToNat_natToChars]

lemma isDigit_not_special {c : Char} (h : c.isDigit = true) :
    c ≠ '_' ∧ c ≠ '.' ∧ c.isWhitespace = false := by
  refine ⟨?_, ?_, ?_⟩
  · rintro rfl; exact absurd h (by decide)
  · rintro rfl; exact absurd h (by decide)
  · simp only [Char.isWhitespace, Bool.or_eq_false_iff, decide_eq_false_iff_not]
    refine ⟨⟨⟨?_, ?_⟩, ?_⟩, ?_⟩ <;> rintro rfl <;> exact absurd h (by decide)

/-! ### Facts about splitting and joining -/

lemma splitOnChar_ne_nil (c : Char) (s : List Char) : splitOnChar c s ≠ [] := by
  induction s with
  | nil => simp [splitOnChar]
  | cons x xs ih =>
    simp only [splitOnChar]
    by_cases hx : x = c
    · simp [hx]
    · simp only [hx, if_false]
      rcases h : splitOnChar c xs with _ | ⟨y, ys⟩
      · exact absurd h ih
      · simp

lemma splitOnChar_no_delim {c : Char} :
    ∀ {s : List Char}, (∀ x ∈ s, x ≠ c) → splitOnChar c s = [s] := by
  intro s
  induction s with
  | nil => intro _; rfl
  | cons x xs ih =>
    intro h
    have hx : x ≠ c := h x (by simp)
    have hxs : splitOnChar c xs = [xs] := ih (fun y hy => h y (by simp [hy]))
    simp [splitOnChar, hx, hxs]

lemma splitOnChar_append {c : Char} :
    ∀ {s : List Char}, (∀ x ∈ s, x ≠ c) →
      ∀ t, splitOnChar c (s ++ c :: t) = s :: splitOnChar c t := by
  intro s
  induction s with
  | nil => intro _ t; simp [splitOnChar]
  | cons x xs ih =>
    intro h t
    have hx : x ≠ c := h x (by simp)
    have hxs := ih (fun y hy => h y (by simp [hy])) t
    show splitOnChar c (x :: xs ++ c :: t) = (x :: xs) :: splitOnChar c t
    rw [List.cons_append, splitOnChar, if_neg hx, hxs]

lemma joinWith_cons_cons (sep : List Char) (x y : List Char)
    (ys : List (List Char)) :
    joinWith sep (x :: y :: ys) = x ++ sep ++ joinWith sep (y :: ys) := rfl

lemma joinWith_splitOnChar (c : Char) :
    ∀ s : List Char, joinWith [c] (splitOnChar c s) = s := by
  intro s
  induction s with
  | nil => rfl
  | cons x xs ih =>
    rcases h : splitOnChar c xs with _ | ⟨y, ys⟩
    · exact absurd h (splitOnChar_ne_nil c xs)
    · by_cases hx : x = c
      · subst hx
        rw [h] at ih
        simp only [splitOnChar, h, eq_self_iff_true, if_true]
        rw [joinWith_cons_cons]
        simp [ih]
      · simp only [splitOnChar, hx, if_false, h]
        rw [h] at ih
        cases ys with
        | nil =>
          simp only [joinWith] at ih ⊢
          simp [ih]
        | cons z zs =>
          rw [joinWith_cons_cons] at ih ⊢
          rw [← ih]
          simp

lemma isDigit_of_mem_snrChars {t : Nat} {c : Char} (hc : c ∈ snrChars t) :
    c.isDigit = true ∨ c = '.' := by
  simp only [snrChars, List.mem_append, List.mem_cons, List.not_mem_nil,
    or_false] at hc
  rcases hc with hc | hc | hc
  · exact Or.inl (isDigit_of_mem_natToChars hc)
  · exact Or.inr hc
  · subst hc
    exact Or.inl (isDigit_digitChar (Nat.mod_lt t (by norm_num)))

lemma parseSnr_snrChars (t : Nat) : parseSnr (snrChars t) = some t := by
  have hip : ∀ x ∈ natToChars (t / 10), x ≠ '.' := fun x hx =>
    (isDigit_not_special (isDigit_of_mem_natToChars hx)).2.1
  have hsplit : splitOnChar '.' (snrChars t) =
      natToChars (t / 10) :: splitOnChar '.' [digitChar (t % 10)] := by
    rw [snrChars, splitOnChar_append hip]
  have hfp : splitOnChar '.' [digitChar (t % 10)] = [[digitChar (t % 10)]] :=
    splitOnChar_no_delim (by
      intro x hx
      simp only [List.mem_singleton] at hx
      subst hx
      exact (isDigit_not_special
        (isDigit_digitChar (Nat.mod_lt t (by norm_num)))).2.1)
  have hdig : strToNat [digitChar (t % 10)] = some (t % 10) := by
    have h10 := Nat.mod_lt t (show 0 < 10 by norm_num)
    simp [strToNat, isDigit_digitChar h10, charsToNat,
      digitVal_digitChar h10]
  rw [parseSnr, hsplit, hfp]
  simp only [strToNat_natToChars, hdig, List.length_singleton, if_pos rfl]
  exact congrArg some (by omega)

lemma not_underscore_of_mem_natToChars {n : Nat} {c : Char}
    (hc : c ∈ natToChars n) : c ≠ '_' :=
  (isDigit_not_special (isDigit_of_mem_natToChars hc)).1

lemma not_underscore_of_mem_snrChars {t : Nat} {c : Char}
    (hc : c ∈ snrChars t) : c ≠ '_' := by
  rcases isDigit_of_mem_snrChars hc with h | h
  · exact (isDigit_not_special h).1
  · subst h; decide

lemma not_ws_of_mem_natToChars {n : Nat} {c : Char}
    (hc : c ∈ natToChars n) : c.isWhitespace = false :=
  (isDigit_not_special (isDigit_of_mem_natToChars hc)).2.2

lemma not_ws_of_mem_snrChars {t : Nat} {c : Char}
    (hc : c ∈ snrChars t) : c.isWhitespace = false := by
  rcases isDigit_of_mem_snrChars hc with h | h
  · exact (isDigit_not_special h).2.2
  · subst h; decide

lemma splitOnChar_to_name (i j k l t : Nat) (obj : List Char) :
    splitOnChar '_' (Ferre.to_name i j k l t obj) =
      natToChars i :: natToChars j :: natToChars k :: natToChars l ::
        snrChars t :: splitOnChar '_' obj := by
  have hn : ∀ m : Nat, ∀ x ∈ natToChars m, x ≠ '_' := fun m x hx =>
    not_underscore_of_mem_natToChars hx
  have hs : ∀ x ∈ snrChars t, x ≠ '_' := fun x hx =>
    not_underscore_of_mem_snrChars hx
  have hshape : Ferre.to_name i j k l t obj =
      natToChars i ++ '_' :: (natToChars j ++ '_' :: (natToChars k ++ '_' ::
        (natToChars l ++ '_' :: (snrChars t ++ '_' :: obj)))) := by
    simp [Ferre.to_name]
  rw [hshape, splitOnChar_append (hn i), splitOnChar_append (hn j),
    splitOnChar_append (hn k), splitOnChar_append (hn l), splitOnChar_append hs]

/-- C1 (amended).  Name-codec round trip, `Ferre.to_name` / `Ferre.from_name`
of `python/astra/contrib/ferre/base.py`: for all non-negative integer slots
`i, j, k, l`, every one-decimal fixed-point signal-to-noise value (`t` tenths)
and every whitespace-free object id `obj` — including object ids containing
the underscore delimiter — decoding the encoded token recovers the original
tuple, the token is the underscore-join of the six fields, and the token is
whitespace-free.  (For an `obj` containing whitespace the token itself
contains that whitespace; see the counterexample.) -/
theorem c1_name_codec_round_trip (i j k l t : Nat) (obj : List Char)
    (hobj : obj.all (fun c => !c.isWhitespace) = true) :
    Ferre.from_name (Ferre.to_name i j k l t obj) = some (i, j, k, l, t, obj)
    ∧ Ferre.to_name i j k l t obj =
        joinWith ['_'] [natToChars i, natToChars j, natToChars k,
          natToChars l, snrChars t, obj]
    ∧ (Ferre.to_name i j k l t obj).all (fun c => !c.isWhitespace) = true := by
  refine ⟨?_, ?_, ?_⟩
  · rw [Ferre.from_name, splitOnChar_to_name]
    simp only [strToNat_natToChars, parseSnr_snrChars, joinWith_splitOnChar]
  · simp [Ferre.to_name, joinWith_cons_cons, joinWith]
  · rw [List.all_eq_true]
    intro c hc
    rw [List.all_eq_true] at hobj
    have hmem : c ∈ natToChars i ∨ c ∈ natToChars j ∨ c ∈ natToChars k ∨
        c ∈ natToChars l ∨ c ∈ snrChars t ∨ c = '_' ∨ c ∈ obj := by
      simp only [Ferre.to_name, List.mem_append, List.mem_cons] at hc
      tauto
    rcases hmem with h | h | h | h | h | h | h
    · simp [not_ws_of_mem_natToChars h]
    · simp [not_ws_of_mem_natToChars h]
    · simp [not_ws_of_mem_natToChars h]
    · simp [not_ws_of_mem_natToChars h]
    · simp [not_ws_of_mem_snrChars h]
    · subst h; decide
    · exact hobj c h

/-- C1, counterexample to the claim as stated: for an object id containing a
space, the encoded token is not whitespace-free (the codec never sanitises
the object id). -/
theorem c1_name_codec_whitespace_counterexample :
    (Ferre.to_name 0 0 0 0 10 ['a', ' ', 'b']).all
      (fun c => !c.isWhitespace) = false := by decide

/-- C1 witness: the amended theorem applied at a concrete input whose object
id contains the underscore delimiter. -/
theorem c1_name_codec_round_trip_witness :
    Ferre.from_name (Ferre.to_name 1 2 3 4 55 ['o', '_', 'j']) =
      some (1, 2, 3, 4, 55, ['o', '_', 'j']) :=
  (c1_name_codec_round_trip 1 2 3 4 55 ['o', '_', 'j'] (by decide)).1

/-! ## Floating-point cells

The numpy arrays of the reconciliation step hold IEEE doubles whose only
non-finite value in this pipeline is NaN (`np.nan` fill).  A cell is modelled
as either NaN or an exact rational; arithmetic rounding is not modelled.
Comparisons follow IEEE semantics: every comparison with NaN is false. -/

inductive FV
  | nan : FV
  | fin : ℚ → FV
deriving DecidableEq

/-- `np.isfinite` on a cell. -/
def FV.isFinite : FV → Bool
  | .nan => false
  | .fin _ => true

/-- IEEE `<` on cells: false whenever either side is NaN. -/
def FV.lt : FV → FV → Bool
  | .fin a, .fin b => decide (a < b)
  | _, _ => false

/-- IEEE `==` on cells: false whenever either side is NaN. -/
def FV.eqv : FV → FV → Bool
  | .fin a, .fin b => decide (a = b)
  | _, _ => false

/-- A spectrum name as the solver files carry it. -/
abbrev SpecName := List Char

/-- `np.where(input_names == name)[0]` with an explicit start offset for the
recursion. -/
def whereEqAux (ns : List SpecName) (n : SpecName) (start : Nat) : List Nat :=
  match ns with
  | [] => []
  | m :: rest =>
    if m = n then start :: whereEqAux rest n (start + 1)
    else whereEqAux rest n (start + 1)

/-- `np.where(input_names == name)[0]`: the indices of `input_names` holding
`name`, in increasing order. -/
def whereEq (ns : List SpecName) (n : SpecName) : List Nat := whereEqAux ns n 0

/-- The index-building loop of `Ferre.post_execute`
(contrib/ferre/base.py): for each output name, find its position in the
input-name list; `assert len(index) == 1` aborts (here: `none`) unless the
name occurs exactly once in the input parameter file. -/
def outputIndices (input_names : List SpecName) :
    List SpecName → Option (List Nat)
  | [] => some []
  | n :: rest =>
    match whereEq input_names n with
    | [i] => (outputIndices input_names rest).map (fun idx => i :: idx)
    | _ => none

/-- `params[indices] = output_params`: numpy fancy-index assignment, written
left to right so that on duplicate indices the last row wins. -/
def scatter (init : List α) : List Nat → List α → List α
  | [], _ => init
  | _, [] => init
  | i :: is, v :: vs => scatter (init.set i v) is vs

/-- One reconciled array of `Ferre.post_execute`: allocate a NaN-filled array
with one row per input name (`FFILE` is an input, so it has exactly one row
per submitted name — the code sizes the arrays by `flux.shape`), then scatter
the output rows into it by the index array. -/
def reconcile (input_names out_names : List SpecName) (out_vals : List α)
    (nanVal : α) : Option (List α) :=
  (outputIndices input_names out_names).map
    (fun idx => scatter (List.replicate input_names.length nanVal) idx out_vals)

/-- The all-NaN row of width `D` used for missing label rows. -/
def nanRow (D : Nat) : List FV := List.replicate D FV.nan

/-! ### Facts about the index construction and the scatter -/

lemma whereEqAux_eq_nil {n : SpecName} :
    ∀ {ns : List SpecName} (s : Nat), (∀ k, ns.get? k ≠ some n) →
      whereEqAux ns n s = [] := by
  intro ns
  induction ns with
  | nil => intro s _; rfl
  | cons m rest ih =>
    intro s h
    have hm : m ≠ n := fun he => h 0 (by simp [he])
    have hr : ∀ k, rest.get? k ≠ some n := fun k hk => h (k + 1) (by simpa using hk)
    simp [whereEqAux, hm, ih (s + 1) hr]

lemma mem_whereEqAux {n : SpecName} :
    ∀ {ns : List SpecName} (s p : Nat),
      p ∈ whereEqAux ns n s ↔ ∃ k, ns.get? k = some n ∧ p = s + k := by
  intro ns
  induction ns with
  | nil => intro s p; simp [whereEqAux]
  | cons m rest ih =>
    intro s p
    constructor
    · intro hmem
      by_cases hm : m = n
      · rw [whereEqAux, if_pos hm, List.mem_cons] at hmem
        rcases hmem with rfl | hmem
        · exact ⟨0, by simp [hm], by omega⟩
        · obtain ⟨k, hk, hpk⟩ := (ih (s + 1) p).mp hmem
          exact ⟨k + 1, by simpa using hk, by omega⟩
      · rw [whereEqAux, if_neg hm] at hmem
        obtain ⟨k, hk, hpk⟩ := (ih (s + 1) p).mp hmem
        exact ⟨k + 1, by simpa using hk, by omega⟩
    · rintro ⟨k, hk, rfl⟩
      cases k with
      | zero =>
        simp only [List.get?_cons_zero, Option.some_inj] at hk
        rw [whereEqAux, if_pos hk]
        simp
      | succ k' =>
        have hk' : rest.get? k' = some n := by simpa using hk
        have hmem : s + 1 + k' ∈ whereEqAux rest n (s + 1) :=
          (ih (s + 1) (s + 1 + k')).mpr ⟨k', hk', rfl⟩
        have harith : s + (k' + 1) = s + 1 + k' := by omega
        by_cases hm : m = n
        · rw [whereEqAux, if_pos hm, List.mem_cons, harith]
          exact Or.inr hmem
        · rw [whereEqAux, if_neg hm, harith]
          exact hmem

lemma whereEqAux_singleton {n : SpecName} :
    ∀ {ns : List SpecName} (s p : Nat), ns.get? p = some n →
      (∀ q, ns.get? q = some n → q = p) →
      whereEqAux ns n s = [s + p] := by
  intro ns
  induction ns with
  | nil => intro s p hp _; simp at hp
  | cons m rest ih =>
    intro s p hp huniq
    by_cases hm : m = n
    · have hp0 : (0 : Nat) = p := huniq 0 (by simp [hm])
      have hrest : ∀ k, rest.get? k ≠ some n := by
        intro k hk
        have h1 := huniq (k + 1) (by simpa using hk)
        omega
      rw [whereEqAux, if_pos hm, whereEqAux_eq_nil (s + 1) hrest]
      have hp0' : p = 0 := by omega
      subst hp0'
      simp
    · cases p with
      | zero =>
        simp only [List.get?_cons_zero, Option.some_inj] at hp
        exact absurd hp hm
      | succ p' =>
        have hp' : rest.get? p' = some n := by simpa using hp
        have huniq' : ∀ q, rest.get? q = some n → q = p' := by
          intro q hq
          have := huniq (q + 1) (by simpa using hq)
          omega
        rw [whereEqAux, if_neg hm, ih (s + 1) p' hp' huniq']
        congr 1
        omega

lemma whereEq_singleton {ns : List SpecName} {n : SpecName} {p : Nat}
    (hp : ns.get? p = some n) (huniq : ∀ q, ns.get? q = some n → q = p) :
    whereEq ns n = [p] := by
  have := whereEqAux_singleton 0 p hp huniq
  simpa [whereEq] using this

lemma whereEq_singleton_exists_unique {ns : List SpecName} {n : SpecName}
    (h : ∃ i, whereEq ns n = [i]) : ∃! p, ns.get? p = some n := by
  obtain ⟨i, hi⟩ := h
  have hmem : i ∈ whereEq ns n := by simp [hi]
  rw [whereEq, mem_whereEqAux] at hmem
  obtain ⟨k, hk, hik⟩ := hmem
  refine ⟨k, hk, ?_⟩
  intro q hq
  have : q ∈ whereEq ns n := by
    rw [whereEq, mem_whereEqAux]
    exact ⟨q, hq, by omega⟩
  rw [hi, List.mem_singleton] at this
  omega

lemma scatter_length :
    ∀ (is : List Nat) (vs : List α) (init : List α),
      (scatter init is vs).length = init.length := by
  intro is
  induction is with
  | nil => intro vs init; simp [scatter]
  | cons i is ih =>
    intro vs init
    cases vs with
    | nil => simp [scatter]
    | cons v vs => rw [scatter, ih, List.length_set]

lemma scatter_get_of_not_mem :
    ∀ (is : List Nat) (vs : List α) (init : List α) (p : Nat), p ∉ is →
      (scatter init is vs).get? p = init.get? p := by
  intro is
  induction is with
  | nil => intro vs init p _; simp [scatter]
  | cons i is ih =>
    intro vs init p hp
    cases vs with
    | nil => simp [scatter]
    | cons v vs =>
      have hip : i ≠ p := fun he => hp (by simp [he])
      rw [scatter, ih _ _ _ (fun hm => hp (by simp [hm])),
        List.get?_set_ne _ _ hip]

lemma replicate_get?_lt (a : α) :
    ∀ (M p : Nat), p < M → (List.replicate M a).get? p = some a := by
  intro M
  induction M with
  | zero => intro p hp; omega
  | succ M ih =>
    intro p hp
    cases p with
    | zero => rfl
    | succ p' => simpa [List.replicate_succ] using ih p' (by omega)

lemma scatter_get_target :
    ∀ (is : List Nat) (vs : List α) (init : List α) (j : Nat),
      is.Nodup → is.length = vs.length →
      ∀ p, is.get? j = some p → p < init.length →
        (scatter init is vs).get? p = vs.get? j := by
  intro is
  induction is with
  | nil => intro vs init j _ _ p hp _; simp at hp
  | cons i is ih =>
    intro vs init j hnd hlen p hp hlt
    cases vs with
    | nil => simp at hlen
    | cons v vs =>
      cases j with
      | zero =>
        simp only [List.get?_cons_zero, Option.some_inj] at hp
        subst hp
        have hni : i ∉ is := (List.nodup_cons.mp hnd).1
        rw [scatter, scatter_get_of_not_mem _ _ _ _ hni,
          List.get?_set_eq_of_lt _ hlt]
        rfl
      | succ j' =>
        simp only [List.get?_cons_succ] at hp ⊢
        rw [scatter]
        exact ih vs _ j' (List.nodup_cons.mp hnd).2 (by simpa using hlen) p hp
          (by rw [List.length_set]; exact hlt)

lemma outputIndices_spec (input : List SpecName) :
    ∀ out : List SpecName,
      (∀ n ∈ out, ∃! p, input.get? p = some n) → out.Nodup →
      ∃ idx, outputIndices input out = some idx ∧ idx.length = out.length ∧
        idx.Nodup ∧
        (∀ j n, out.get? j = some n →
          ∃ p, idx.get? j = some p ∧ p < input.length ∧
            input.get? p = some n) ∧
        (∀ p ∈ idx, ∃ n ∈ out, input.get? p = some n) := by
  intro out
  induction out with
  | nil =>
    intro _ _
    exact ⟨[], rfl, rfl, List.nodup_nil, by simp, by simp⟩
  | cons n rest ih =>
    intro hu hnd
    obtain ⟨p, hp, hpuniq⟩ := hu n (by simp)
    have hw : whereEq input n = [p] := whereEq_singleton hp (fun q hq => hpuniq q hq)
    obtain ⟨idx, hidx, hlen, hnd', hspec, hmem⟩ :=
      ih (fun m hm => hu m (by simp [hm])) (List.nodup_cons.mp hnd).2
    refine ⟨p :: idx, ?_, by simp [hlen], ?_, ?_, ?_⟩
    · rw [outputIndices, hw, hidx]
      rfl
    · rw [List.nodup_cons]
      refine ⟨fun hpmem => ?_, hnd'⟩
      obtain ⟨m, hm, hpm⟩ := hmem p hpmem
      rw [hp] at hpm
      exact (List.nodup_cons.mp hnd).1 (Option.some_inj.mp hpm ▸ hm)
    · intro j m hj
      cases j with
      | zero =>
        simp only [List.get?_cons_zero, Option.some_inj] at hj
        subst hj
        obtain ⟨hlt, _⟩ := List.get?_eq_some.mp hp
        exact ⟨p, rfl, hlt, hp⟩
      | succ j' =>
        simp only [List.get?_cons_succ] at hj ⊢
        exact hspec j' m hj
    · intro q hq
      rcases List.mem_cons.mp hq with rfl | hq'
      · exact ⟨n, by simp, hp⟩
      · obtain ⟨m, hm, hqm⟩ := hmem q hq'
        exact ⟨m, by simp [hm], hqm⟩

/-- How one correctly reconciled array of `Ferre.post_execute` looks: the
reconciliation succeeds, the result has one row per input name, rows of
unmatched input names hold the NaN fill, and the row at the input position of
the `j`-th output name holds the `j`-th output value. -/
def ReconciledProperly (input out : List SpecName) (vals : List α)
    (nanVal : α) : Prop :=
  ∃ r, reconcile input out vals nanVal = some r
    ∧ r.length = input.length
    ∧ (∀ p n, input.get? p = some n → n ∉ out → r.get? p = some nanVal)
    ∧ (∀ j p n, out.get? j = some n → input.get? p = some n →
        r.get? p = vals.get? j)

lemma reconcile_fill (input out : List SpecName) (vals : List α) (nanVal : α)
    (hnd : out.Nodup) (hw : ∀ n ∈ out, (whereEq input n).length = 1)
    (hl : vals.length = out.length) :
    ReconciledProperly input out vals nanVal := by
  have hu : ∀ n ∈ out, ∃! p, input.get? p = some n := by
    intro n hn
    have h1 := hw n hn
    rcases he : whereEq input n with _ | ⟨i, rest⟩
    · rw [he] at h1
      simp at h1
    · rw [he] at h1
      have hr : rest = [] := List.length_eq_zero.mp (by simpa using h1)
      subst hr
      exact whereEq_singleton_exists_unique ⟨i, he⟩
  obtain ⟨idx, hidx, hlen, hnd', hspec, hmem⟩ :=
    outputIndices_spec input out hu hnd
  refine ⟨scatter (List.replicate input.length nanVal) idx vals, ?_, ?_, ?_, ?_⟩
  · rw [reconcile, hidx]
    rfl
  · rw [scatter_length, List.length_replicate]
  · intro p n hp hnot
    have hpn : p ∉ idx := by
      intro hpm
      obtain ⟨m, hm, hqm⟩ := hmem p hpm
      rw [hp] at hqm
      exact hnot (Option.some_inj.mp hqm ▸ hm)
    obtain ⟨hlt, _⟩ := List.get?_eq_some.mp hp
    rw [scatter_get_of_not_mem _ _ _ _ hpn, replicate_get?_lt _ _ _ hlt]
  · intro j p n hj hp
    obtain ⟨p', hp', hlt', hinp⟩ := hspec j n hj
    obtain ⟨q, _, hquniq⟩ := hu n (List.get?_mem hj)
    have e1 := hquniq p hp
    have e2 := hquniq p' hinp
    subst e1
    rw [e2] at hp' hlt'
    exact scatter_get_target idx vals _ j hnd' (by omega) p hp'
      (by rw [List.length_replicate]; exact hlt')

/-- C2: Reconciliation fill (`Ferre.post_execute`, contrib/ferre/base.py).
For an output parameter file whose names are distinct and each match exactly
one input name, the reconciled label, uncertainty, log-chi-square and
log-snr-squared arrays each have exactly one row per input name (the code
sizes them by the input flux file, which has one row per input name); the
rows at the input positions of the matched names hold the output-file values,
and rows of unmatched input names are the NaN fill — the result is in input
submission order regardless of the output row order. -/
theorem c2_reconciliation_fill (input out : List SpecName)
    (params errs : List (List FV)) (chisq snrsq : List FV) (D : Nat)
    (hnd : out.Nodup) (hw : ∀ n ∈ out, (whereEq input n).length = 1)
    (hl1 : params.length = out.length) (hl2 : errs.length = out.length)
    (hl3 : chisq.length = out.length) (hl4 : snrsq.length = out.length) :
    ReconciledProperly input out params (nanRow D)
    ∧ ReconciledProperly input out errs (nanRow D)
    ∧ ReconciledProperly input out chisq FV.nan
    ∧ ReconciledProperly input out snrsq FV.nan :=
  ⟨reconcile_fill _ _ _ _ hnd hw hl1, reconcile_fill _ _ _ _ hnd hw hl2,
    reconcile_fill _ _ _ _ hnd hw hl3, reconcile_fill _ _ _ _ hnd hw hl4⟩

/-- C2 witness: three input names, an output file holding rows for the third
and first input names in that (permuted) order. -/
theorem c2_reconciliation_fill_witness :
    ReconciledProperly [['a'], ['b'], ['c']] [['c'], ['a']]
      [[FV.fin 1], [FV.fin 2]] (nanRow 1)
    ∧ ReconciledProperly [['a'], ['b'], ['c']] [['c'], ['a']]
      [[FV.fin 3], [FV.fin 4]] (nanRow 1)
    ∧ ReconciledProperly [['a'], ['b'], ['c']] [['c'], ['a']]
      [FV.fin 5, FV.fin 6] FV.nan
    ∧ ReconciledProperly [['a'], ['b'], ['c']] [['c'], ['a']]
      [FV.fin 7, FV.fin 8] FV.nan :=
  c2_reconciliation_fill [['a'], ['b'], ['c']] [['c'], ['a']]
    [[FV.fin 1], [FV.fin 2]] [[FV.fin 3], [FV.fin 4]]
    [FV.fin 5, FV.fin 6] [FV.fin 7, FV.fin 8] 1
    (by decide) (by decide) rfl rfl rfl rfl

/-- C7, counterexample to the claim as stated: an output file that lists the
same (input-unique) name twice does not make reconciliation fail — the
`assert` of `Ferre.post_execute` only checks that each output name occurs
exactly once in the INPUT parameter file — and the later duplicate row
silently overwrites the earlier one. -/
theorem c7_duplicate_output_counterexample :
    reconcile [['a'], ['b']] [['a'], ['a']] [[FV.fin 1], [FV.fin 2]]
      (nanRow 1) = some [[FV.fin 2], [FV.nan]] := by decide

/-- C7 (amended).  Reconciliation raises a fatal parse error exactly when
some name in the output parameter file does not occur exactly once in the
input name list (it is unmatched, or duplicated in the input file); a name
duplicated within the output file but unique among the inputs is not an
error, and the last such output row wins. -/
theorem c7_inconsistent_output_fatal (input : List SpecName) (vals : List α)
    (nanVal : α) :
    ∀ out : List SpecName,
      (reconcile input out vals nanVal = none ↔
        ∃ n ∈ out, (whereEq input n).length ≠ 1) := by
  intro out
  induction out with
  | nil => simp [reconcile, outputIndices]
  | cons n rest ih =>
    rw [reconcile] at ih ⊢
    rcases he : whereEq input n with _ | ⟨i, rest2⟩
    · refine iff_of_true ?_ ⟨n, by simp, by rw [he]; simp⟩
      simp [outputIndices, he]
    · cases rest2 with
      | nil =>
        rcases ho : outputIndices input rest with _ | idx
        · obtain ⟨m, hm, hmw⟩ := ih.mp (by rw [ho]; rfl)
          refine iff_of_true ?_ ⟨m, by simp [hm], hmw⟩
          simp [outputIndices, he, ho]
        · refine iff_of_false ?_ ?_
          · simp [outputIndices, he, ho]
          · rintro ⟨m, hm, hmw⟩
            rcases List.mem_cons.mp hm with rfl | hm'
            · rw [he] at hmw
              simp at hmw
            · have hcontra := ih.mpr ⟨m, hm', hmw⟩
              rw [ho] at hcontra
              simp at hcontra
      | cons i2 rest3 =>
        refine iff_of_true ?_ ⟨n, by simp, by rw [he]; simp⟩
        simp [outputIndices, he]

/-! ## Completeness forcing (C3)

`Ferre.post_execute` (contrib/ferre/base.py) after the scatter:
`has_complete_results = np.any(np.isfinite(params), axis=1) *
np.any(np.isfinite(model_flux), axis=1)`, and every row without complete
results is forced to NaN in `params`, `model_flux`, `normalized_flux` and
`continuum`. -/

/-- `np.any(np.isfinite(row))` for one row. -/
def anyFinite (row : List FV) : Bool := row.any FV.isFinite

/-- An entirely-NaN row — how a row missing from an output file looks after
the NaN-fill reconciliation. -/
def allNaN (row : List FV) : Bool := row.all (fun v => !v.isFinite)

/-- The per-row `has_complete_results` vector. -/
def hasCompleteResults (params mf : List (List FV)) : List Bool :=
  (params.zip mf).map (fun pq => anyFinite pq.1 && anyFinite pq.2)

/-- `x[~has_complete_results] = np.nan` applied to a row array `x`. -/
def applyCompleteMask (hs : List Bool) (arr : List (List FV)) :
    List (List FV) :=
  (hs.zip arr).map
    (fun p => if p.1 then p.2 else List.replicate p.2.length FV.nan)

lemma allNaN_eq_not_anyFinite (row : List FV) :
    allNaN row = !anyFinite row := by
  induction row with
  | nil => rfl
  | cons v vs ih => simp [allNaN, anyFinite] at ih ⊢; tauto

lemma allNaN_replicate (M : Nat) : allNaN (List.replicate M FV.nan) = true := by
  induction M with
  | zero => rfl
  | succ M ih => simpa [allNaN, List.replicate_succ, FV.isFinite] using ih

lemma zip_get? :
    ∀ (l : List α) (m : List β) (z : Nat) (a : α) (b : β),
      l.get? z = some a → m.get? z = some b →
      (l.zip m).get? z = some (a, b) := by
  intro l
  induction l with
  | nil => intro m z a b ha _; simp at ha
  | cons x xs ih =>
    intro m z a b ha hb
    cases m with
    | nil => simp at hb
    | cons y ys =>
      cases z with
      | zero =>
        simp only [List.get?_cons_zero, Option.some_inj] at ha hb
        simp [List.zip_cons_cons, ha, hb]
      | succ z' =>
        simp only [List.get?_cons_succ] at ha hb
        simpa [List.zip_cons_cons] using ih ys z' a b ha hb

lemma applyCompleteMask_get? {hs : List Bool} {arr : List (List FV)}
    {z : Nat} {b : Bool} {row : List FV}
    (hb : hs.get? z = some b) (hr : arr.get? z = some row) :
    (applyCompleteMask hs arr).get? z =
      some (if b then row else List.replicate row.length FV.nan) := by
  rw [applyCompleteMask, List.get?_map, zip_get? hs arr z b row hb hr]
  rfl

lemma hasCompleteResults_get? {params mf : List (List FV)} {z : Nat}
    {pr mr : List FV} (hp : params.get? z = some pr)
    (hq : mf.get? z = some mr) :
    (hasCompleteResults params mf).get? z =
      some (anyFinite pr && anyFinite mr) := by
  rw [hasCompleteResults, List.get?_map, zip_get? params mf z pr mr hp hq]
  rfl

/-- C3: All-or-nothing rows after reconciliation (`Ferre.post_execute`).
If row `z` of the fitted-parameter output is missing (all-NaN after the
NaN-fill scatter) or its model flux row is missing, then after the
completeness forcing the fitted labels, model flux, normalized flux and
continuum of row `z` are all entirely NaN; and in every case a forced row
has finite labels exactly when it has finite model flux — no row carries
labels without a model spectrum or a model spectrum without labels. -/
theorem c3_all_or_nothing (params mf nf ct : List (List FV))
    (hmf : mf.length = params.length) (hnf : nf.length = params.length)
    (hct : ct.length = params.length) (z : Nat) (pr mr : List FV)
    (hp : params.get? z = some pr) (hq : mf.get? z = some mr) :
    ((allNaN pr = true ∨ allNaN mr = true) →
      (∀ r, (applyCompleteMask (hasCompleteResults params mf) params).get? z
          = some r → allNaN r = true)
      ∧ (∀ r, (applyCompleteMask (hasCompleteResults params mf) mf).get? z
          = some r → allNaN r = true)
      ∧ (∀ r, (applyCompleteMask (hasCompleteResults params mf) nf).get? z
          = some r → allNaN r = true)
      ∧ (∀ r, (applyCompleteMask (hasCompleteResults params mf) ct).get? z
          = some r → allNaN r = true))
    ∧ (∀ r s,
        (applyCompleteMask (hasCompleteResults params mf) params).get? z
          = some r →
        (applyCompleteMask (hasCompleteResults params mf) mf).get? z
          = some s →
        anyFinite r = anyFinite s) := by
  have hb := hasCompleteResults_get? hp hq
  have hrepl : ∀ M : Nat, anyFinite (List.replicate M FV.nan) = false := by
    intro M
    have h := allNaN_replicate M
    rw [allNaN_eq_not_anyFinite, Bool.not_eq_true'] at h
    exact h
  constructor
  · intro hmiss
    have hfalse : (anyFinite pr && anyFinite mr) = false := by
      rcases hmiss with h | h <;>
        · rw [allNaN_eq_not_anyFinite, Bool.not_eq_true'] at h
          simp [h]
    rw [hfalse] at hb
    have hmask : ∀ arr : List (List FV), ∀ row,
        arr.get? z = some row →
        ∀ r, (applyCompleteMask (hasCompleteResults params mf) arr).get? z
          = some r → allNaN r = true := by
      intro arr row hrow r hr
      rw [applyCompleteMask_get? hb hrow] at hr
      have hr' : r = List.replicate row.length FV.nan := by
        have h := Option.some_inj.mp hr
        simpa using h.symm
      rw [hr']
      exact allNaN_replicate _
    have hz : z < params.length := by
      obtain ⟨h, _⟩ := List.get?_eq_some.mp hp
      exact h
    have hnr : nf.get? z = some (nf.get ⟨z, by omega⟩) :=
      List.get?_eq_get (by omega)
    have hcr : ct.get? z = some (ct.get ⟨z, by omega⟩) :=
      List.get?_eq_get (by omega)
    exact ⟨hmask params pr hp, hmask mf mr hq, hmask nf _ hnr,
      hmask ct _ hcr⟩
  · intro r s hr hs
    rw [applyCompleteMask_get? hb hp] at hr
    rw [applyCompleteMask_get? hb hq] at hs
    have hr' := Option.some_inj.mp hr
    have hs' := Option.some_inj.mp hs
    rcases hcase : (anyFinite pr && anyFinite mr) with _ | _
    · rw [hcase] at hr' hs'
      have hrr : r = List.replicate pr.length FV.nan := by
        simpa using hr'.symm
      have hss : s = List.replicate mr.length FV.nan := by
        simpa using hs'.symm
      rw [hrr, hss, hrepl, hrepl]
    · rw [hcase] at hr' hs'
      simp only [if_true] at hr' hs'
      obtain ⟨h1, h2⟩ : anyFinite pr = true ∧ anyFinite mr = true := by
        simpa using hcase
      rw [show r = pr from by simpa using hr'.symm,
        show s = mr from by simpa using hs'.symm, h1, h2]

/-- C3 witness: one spectrum whose fitted labels are present but whose model
flux row is missing (all-NaN); after the forcing, the label row is entirely
NaN. -/
theorem c3_all_or_nothing_witness :
    (applyCompleteMask (hasCompleteResults [[FV.fin 1]] [[FV.nan]])
      [[FV.fin 1]]).get? 0 = some [FV.nan]
    ∧ allNaN [FV.nan] = true :=
  ⟨by decide,
    ((c3_all_or_nothing [[FV.fin 1]] [[FV.nan]] [[FV.fin 2]] [[FV.fin 3]]
      rfl rfl rfl 0 [FV.fin 1] [FV.nan] rfl rfl).1
        (Or.inr (by decide))).1 [FV.nan] (by decide)⟩

/-! ## Bounded retry (C4)

End of `Ferre.post_execute` (contrib/ferre/base.py):
`if failed_task_ids and recursion_level < 5 and
len(failed_task_ids) > self.n_threads:` create one sub-bundle, insert the
failed task ids (iterating `failed_task_ids[::-1]`), and execute it with
`__recursion_level__ = recursion_level + 1`. -/

/-- The retry decision: `some (child_level, child_task_ids)` when a child
bundle is created, `none` otherwise. -/
def spawnChild (recursion_level n_threads : Nat)
    (failed_task_ids : List Nat) : Option (Nat × List Nat) :=
  if failed_task_ids ≠ [] ∧ recursion_level < 5 ∧
      failed_task_ids.length > n_threads
  then some (recursion_level + 1, failed_task_ids.reverse)
  else none

/-- The recursion levels reached when the cycle is re-run on each failure
set: `failures lvl` is the failed-task list produced at level `lvl`;
`runRetry failures n_threads n` is the level active after `n` spawns, or
`none` once no child bundle is created. -/
def runRetry (failures : Nat → List Nat) (n_threads : Nat) : Nat → Option Nat
  | 0 => some 0
  | n + 1 =>
    match runRetry failures n_threads n with
    | none => none
    | some r => (spawnChild r n_threads (failures r)).map Prod.fst

lemma runRetry_some_le (failures : Nat → List Nat) (n_threads : Nat) :
    ∀ n r, runRetry failures n_threads n = some r → r = n ∧ n ≤ 5 := by
  intro n
  induction n with
  | zero =>
    intro r h
    rw [runRetry] at h
    exact ⟨(Option.some_inj.mp h).symm, by omega⟩
  | succ n ih =>
    intro r h
    rw [runRetry] at h
    rcases hprev : runRetry failures n_threads n with _ | r'
    · rw [hprev] at h
      simp at h
    · rw [hprev] at h
      obtain ⟨hr', _⟩ := ih r' hprev
      rw [hr'] at h
      have h2 : (spawnChild n n_threads (failures n)).map Prod.fst
          = some r := h
      unfold spawnChild at h2
      by_cases hcond : failures n ≠ [] ∧ n < 5 ∧
          (failures n).length > n_threads
      · rw [if_pos hcond] at h2
        have hr : r = n + 1 := by simpa using h2.symm
        obtain ⟨_, h5, _⟩ := hcond
        exact ⟨hr, by omega⟩
      · rw [if_neg hcond] at h2
        simp at h2

/-- C4: Bounded retry.  A child bundle — containing exactly the failed task
ids, executed at `recursion_level + 1` — is created if and only if the failed
count strictly exceeds the configured thread count and the recursion level is
strictly below 5; at level 5 nothing is spawned, and any chain of retries is
dead after at most 5 spawns (`runRetry` is `none` from step 6 on). -/
theorem c4_bounded_retry (r n_threads : Nat) (failed : List Nat)
    (failures : Nat → List Nat) :
    (spawnChild r n_threads failed = some (r + 1, failed.reverse) ↔
      (n_threads < failed.length ∧ r < 5))
    ∧ (∀ lvl ids, spawnChild r n_threads failed = some (lvl, ids) →
        lvl = r + 1 ∧ ∀ id0, id0 ∈ ids ↔ id0 ∈ failed)
    ∧ spawnChild 5 n_threads failed = none
    ∧ (∀ n, 6 ≤ n → runRetry failures n_threads n = none) := by
  refine ⟨?_, ?_, ?_, ?_⟩
  · constructor
    · intro h
      rw [spawnChild] at h
      by_cases hcond : failed ≠ [] ∧ r < 5 ∧ failed.length > n_threads
      · exact ⟨hcond.2.2, hcond.2.1⟩
      · rw [if_neg hcond] at h
        exact absurd h (by simp)
    · intro ⟨h1, h2⟩
      have hne : failed ≠ [] := by
        intro he
        rw [he] at h1
        simp at h1
      rw [spawnChild, if_pos ⟨hne, h2, h1⟩]
  · intro lvl ids h
    rw [spawnChild] at h
    by_cases hcond : failed ≠ [] ∧ r < 5 ∧ failed.length > n_threads
    · rw [if_pos hcond] at h
      have hpair := Option.some_inj.mp h
      have e1 : r + 1 = lvl := congrArg Prod.fst hpair
      have e2 : failed.reverse = ids := congrArg Prod.snd hpair
      refine ⟨e1.symm, ?_⟩
      intro id0
      rw [← e2]
      simp
    · rw [if_neg hcond] at h
      exact absurd h (by simp)
  · rw [spawnChild]
    have : ¬(failed ≠ [] ∧ 5 < 5 ∧ failed.length > n_threads) := by
      rintro ⟨_, h5, _⟩
      omega
    rw [if_neg this]
  · intro n hn
    rcases h : runRetry failures n_threads n with _ | r'
    · rfl
    · obtain ⟨_, hle⟩ := runRetry_some_le failures n_threads n r' h
      omega

/-- C4 witness: two failed tasks, one configured thread, recursion level 0 —
a child bundle is spawned at level 1 containing exactly the failed tasks. -/
theorem c4_bounded_retry_witness :
    spawnChild 0 1 [7, 8] = some (1, [8, 7]) :=
  (c4_bounded_retry 0 1 [7, 8] (fun _ => [])).1.mpr (by decide)

/-! ## Bitmask values and grid selection (C5)

`create_stellar_parameter_task_bundles` (contrib/aspcap/base.py) penalizes
each candidate result's log-chi-square and sorts by
`(penalized_log_chisq_fit, -task.id, -output.id)`, taking the head. -/

/-- Modelled from the spec: the repository snapshot does not contain
`astra.contrib.ferre.bitmask` (`ParamBitMask.get_value`), only its callers.
The spec describes the per-parameter mask as bit-encoded quality flags, one
cause per bit, combined by bitwise OR and never cleared; accordingly each
named flag is a distinct single bit, fixed concretely here. -/
def GRIDEDGE_BAD : Nat := 1

/-- Modelled from the spec: distinct single bit for the `GRIDEDGE_WARN`
flag (see `GRIDEDGE_BAD`). -/
def GRIDEDGE_WARN : Nat := 256

/-- Modelled from the spec: distinct single bit for the `FERRE_FAIL` flag
(see `GRIDEDGE_BAD`). -/
def FERRE_FAIL : Nat := 65536

/-- `bad_grid_edge = bitmask.get_value("GRIDEDGE_WARN") |
bitmask.get_value("GRIDEDGE_BAD")`. -/
def bad_grid_edge : Nat := GRIDEDGE_WARN ||| GRIDEDGE_BAD

/-- `np.log10(10)`, which is exactly 1 in IEEE double arithmetic. -/
def log10_10 : ℚ := 1

/-- `np.log10(5)`: the IEEE double, written via its shortest decimal
representation and modelled as an exact rational. -/
def log10_5 : ℚ := 0.6989700043360189

/-- One candidate result row (`FerreOutput` joined with its task's parsed
header) as the selector reads it. -/
structure AspcapOutput where
  log_chisq_fit : ℚ
  teff : ℚ
  bitmask_teff : Nat
  bitmask_logg : Nat
  task_id : Nat
  output_id : Nat
  spectral_type : List Char
deriving DecidableEq

/-- The penalized chi-square accumulation, in source order: start from the
reported log-chi-square, add `log10(10)` for a GK grid fitting
`teff < 3900`, then `log10(5)` for a logg bitmask on a grid edge, then
`log10(5)` for a teff bitmask on a grid edge. -/
def penalized_log_chisq_fit (o : AspcapOutput) : ℚ :=
  let p0 : ℚ := 0
  let p1 := p0 + o.log_chisq_fit
  let p2 := if o.spectral_type = ['G', 'K'] ∧ o.teff < 3900
    then p1 + log10_10 else p1
  let p3 := if o.bitmask_logg &&& bad_grid_edge ≠ 0 then p2 + log10_5 else p2
  if o.bitmask_teff &&& bad_grid_edge ≠ 0 then p3 + log10_5 else p3

/-- The sort order `key=lambda row: (row[0], -row[1].id, -row[2].output.id)`:
`a` precedes `b` when its penalized chi-square is smaller, ties broken by the
larger (more recently created) task id, then the larger output id. -/
def selectionLe (a b : AspcapOutput) : Prop :=
  penalized_log_chisq_fit a < penalized_log_chisq_fit b
  ∨ (penalized_log_chisq_fit a = penalized_log_chisq_fit b
    ∧ (b.task_id < a.task_id
      ∨ (b.task_id = a.task_id ∧ b.output_id ≤ a.output_id)))

instance : DecidableRel selectionLe := fun a b => by
  unfold selectionLe
  infer_instance

instance : IsTotal AspcapOutput selectionLe := ⟨by
  intro a b
  rcases lt_trichotomy (penalized_log_chisq_fit a)
    (penalized_log_chisq_fit b) with h | h | h
  · exact Or.inl (Or.inl h)
  · rcases Nat.lt_trichotomy a.task_id b.task_id with ht | ht | ht
    · exact Or.inr (Or.inr ⟨h.symm, Or.inl ht⟩)
    · rcases Nat.le_total a.output_id b.output_id with ho | ho
      · exact Or.inr (Or.inr ⟨h.symm, Or.inr ⟨ht, ho⟩⟩)
      · exact Or.inl (Or.inr ⟨h, Or.inr ⟨ht.symm, ho⟩⟩)
    · exact Or.inl (Or.inr ⟨h, Or.inl ht⟩)
  · exact Or.inr (Or.inl h)⟩

instance : IsTrans AspcapOutput selectionLe := ⟨by
  intro a b c hab hbc
  rcases hab with h1 | ⟨e1, t1⟩
  · rcases hbc with h2 | ⟨e2, _⟩
    · exact Or.inl (lt_trans h1 h2)
    · exact Or.inl (by rw [← e2]; exact h1)
  · rcases hbc with h2 | ⟨e2, t2⟩
    · exact Or.inl (by rw [e1]; exact h2)
    · refine Or.inr ⟨e1.trans e2, ?_⟩
      rcases t1 with ht1 | ⟨et1, ho1⟩
      · rcases t2 with ht2 | ⟨et2, ho2⟩
        · exact Or.inl (by omega)
        · exact Or.inl (by omega)
      · rcases t2 with ht2 | ⟨et2, ho2⟩
        · exact Or.inl (by omega)
        · exact Or.inr ⟨by omega, by omega⟩⟩

/-- `sorted(values, key=...)` and take the head: the selected best result,
`none` only for an empty candidate list. -/
def select_best (cands : List AspcapOutput) : Option AspcapOutput :=
  (List.insertionSort selectionLe cands).head?

lemma select_best_min {cands : List AspcapOutput} {w : AspcapOutput}
    (hw : select_best cands = some w) :
    w ∈ cands ∧ ∀ c ∈ cands, selectionLe w c := by
  unfold select_best at hw
  rcases hs : List.insertionSort selectionLe cands with _ | ⟨x, xs⟩
  · rw [hs] at hw
    simp at hw
  · rw [hs] at hw
    have hwx : w = x := (Option.some_inj.mp hw).symm
    subst hwx
    have hsorted : List.Sorted selectionLe (w :: xs) := by
      rw [← hs]
      exact List.sorted_insertionSort selectionLe cands
    have hmem : w ∈ cands := by
      refine (List.perm_insertionSort selectionLe cands).mem_iff.mp ?_
      rw [hs]
      simp
    refine ⟨hmem, ?_⟩
    intro c hc
    have hc' : c ∈ w :: xs := by
      rw [← hs]
      exact (List.perm_insertionSort selectionLe cands).mem_iff.mpr hc
    rcases List.mem_cons.mp hc' with rfl | hc''
    · exact Or.inr ⟨rfl, Or.inr ⟨rfl, le_refl _⟩⟩
    · exact List.rel_of_sorted_cons hsorted c hc''

/-- The scenario-C candidate with log-chi-square −2.0 and no edge flags. -/
def exA : AspcapOutput :=
  { log_chisq_fit := -2, teff := 4500, bitmask_teff := 0, bitmask_logg := 0,
    task_id := 1, output_id := 1, spectral_type := ['G', 'K'] }

/-- The scenario-C candidate with log-chi-square −2.1 but `GRIDEDGE_BAD` set
on its logg label. -/
def exB : AspcapOutput :=
  { log_chisq_fit := -21/10, teff := 4500, bitmask_teff := 0,
    bitmask_logg := GRIDEDGE_BAD, task_id := 2, output_id := 2,
    spectral_type := ['G', 'K'] }

lemma pen_exA : penalized_log_chisq_fit exA = -2 := by
  have h1 : ¬(exA.spectral_type = ['G', 'K'] ∧ exA.teff < 3900) := by
    rintro ⟨_, h⟩
    norm_num [exA] at h
  have h2 : ¬(exA.bitmask_logg &&& bad_grid_edge ≠ 0) := by decide
  have h3 : ¬(exA.bitmask_teff &&& bad_grid_edge ≠ 0) := by decide
  simp only [penalized_log_chisq_fit, if_neg h1, if_neg h2, if_neg h3]
  norm_num [exA]

lemma pen_exB : penalized_log_chisq_fit exB = -21/10 + log10_5 := by
  have h1 : ¬(exB.spectral_type = ['G', 'K'] ∧ exB.teff < 3900) := by
    rintro ⟨_, h⟩
    norm_num [exB] at h
  have h2 : exB.bitmask_logg &&& bad_grid_edge ≠ 0 := by decide
  have h3 : ¬(exB.bitmask_teff &&& bad_grid_edge ≠ 0) := by decide
  simp only [penalized_log_chisq_fit, if_neg h1, if_pos h2, if_neg h3]
  norm_num [exB]

lemma selectionLe_exA_exB : selectionLe exA exB := by
  refine Or.inl ?_
  rw [pen_exA, pen_exB, log10_5]
  norm_num

lemma not_selectionLe_exB_exA : ¬selectionLe exB exA := by
  rintro (h | ⟨h, _⟩) <;>
    · rw [pen_exA, pen_exB, log10_5] at h
      norm_num at h

lemma select_best_exB_exA : select_best [exB, exA] = some exA := by
  have hsort : List.insertionSort selectionLe [exB, exA] = [exA, exB] := by
    simp [List.insertionSort, List.orderedInsert, not_selectionLe_exB_exA]
  rw [select_best, hsort]
  rfl

lemma select_best_exA_exB : select_best [exA, exB] = some exA := by
  have hsort : List.insertionSort selectionLe [exA, exB] = [exA, exB] := by
    simp [List.insertionSort, List.orderedInsert, selectionLe_exA_exB]
  rw [select_best, hsort]
  rfl

/-- C5: Grid selection by penalized chi-square
(`create_stellar_parameter_task_bundles`, contrib/aspcap/base.py).  The
penalized log-chi-square is the reported log-chi-square plus `log10(5)` for
each of the two edge checks (teff and logg bitmasks carrying a grid-edge
flag) plus `log10(10)` for a GK grid fitting `teff < 3900`; the selected
winner is minimal in the deterministic order (smallest penalized value, ties
to the more recently created result); and in particular the −2.0 candidate
beats the −2.1 candidate that carries `GRIDEDGE_BAD` on logg, whichever
order the candidates arrive in. -/
theorem c5_grid_selection (o : AspcapOutput) (cands : List AspcapOutput)
    (w : AspcapOutput) (hw : select_best cands = some w) :
    penalized_log_chisq_fit o = o.log_chisq_fit
        + (if o.spectral_type = ['G', 'K'] ∧ o.teff < 3900
            then log10_10 else 0)
        + (if o.bitmask_logg &&& bad_grid_edge ≠ 0 then log10_5 else 0)
        + (if o.bitmask_teff &&& bad_grid_edge ≠ 0 then log10_5 else 0)
    ∧ w ∈ cands ∧ (∀ c ∈ cands, selectionLe w c)
    ∧ select_best [exB, exA] = some exA
    ∧ select_best [exA, exB] = some exA := by
  obtain ⟨hmem, hmin⟩ := select_best_min hw
  refine ⟨?_, hmem, hmin, select_best_exB_exA, select_best_exA_exB⟩
  simp only [penalized_log_chisq_fit]
  split_ifs <;> ring

/-- C5 witness: the theorem applied to the two scenario-C candidates, worse
raw chi-square arriving first. -/
theorem c5_grid_selection_witness : exA ∈ [exB, exA] :=
  (c5_grid_selection exA [exB, exA] exA select_best_exB_exA).2.1

/-! ## Bitmask flagger (C6, C10)

`Ferre.post_execute` (contrib/ferre/base.py): starting from a zero mask,
`param_bitmask_flags[...] |= GRIDEDGE_BAD` for values beyond
`LLIMITS + STEPS/8` / `ULIMITS - STEPS/8`, then `|= GRIDEDGE_WARN` for the
full-step bounds, then `|= FERRE_FAIL` for the −999 sentinel, an uncertainty
below −0.01, or a non-finite value.  One cell (one label of one row) is
modelled; numpy comparisons with NaN are false. -/

/-- The `GRIDEDGE_BAD` step on one cell, as a mask transformer. -/
def flagGridEdgeBad (L U s : ℚ) (p : FV) (m : Nat) : Nat :=
  if FV.lt p (FV.fin (L + s / 8)) || FV.lt (FV.fin (U - s / 8)) p
  then m ||| GRIDEDGE_BAD else m

/-- The `GRIDEDGE_WARN` step on one cell. -/
def flagGridEdgeWarn (L U s : ℚ) (p : FV) (m : Nat) : Nat :=
  if FV.lt p (FV.fin (L + s)) || FV.lt (FV.fin (U - s)) p
  then m ||| GRIDEDGE_WARN else m

/-- The `FERRE_FAIL` step on one cell:
`(params == -999) | (param_errs < -0.01) | ~np.isfinite(params)`. -/
def flagFerreFail (p e : FV) (m : Nat) : Nat :=
  if FV.eqv p (FV.fin (-999)) || FV.lt e (FV.fin (-1/100)) || !p.isFinite
  then m ||| FERRE_FAIL else m

/-- The complete flag word for one cell, from the zero mask. -/
def param_bitmask_flags (L U s : ℚ) (p e : FV) : Nat :=
  flagFerreFail p e (flagGridEdgeWarn L U s p (flagGridEdgeBad L U s p 0))

lemma param_bitmask_flags_bad_iff (L U s : ℚ) (p e : FV) :
    (param_bitmask_flags L U s p e &&& GRIDEDGE_BAD ≠ 0) ↔
      (FV.lt p (FV.fin (L + s / 8)) || FV.lt (FV.fin (U - s / 8)) p)
        = true := by
  unfold param_bitmask_flags flagFerreFail flagGridEdgeWarn flagGridEdgeBad
  split_ifs with h1 h2 h3 <;> simp_all <;> decide

lemma param_bitmask_flags_warn_iff (L U s : ℚ) (p e : FV) :
    (param_bitmask_flags L U s p e &&& GRIDEDGE_WARN ≠ 0) ↔
      (FV.lt p (FV.fin (L + s)) || FV.lt (FV.fin (U - s)) p) = true := by
  unfold param_bitmask_flags flagFerreFail flagGridEdgeWarn flagGridEdgeBad
  split_ifs with h1 h2 h3 <;> simp_all <;> decide

lemma param_bitmask_flags_fail_iff (L U s : ℚ) (p e : FV) :
    (param_bitmask_flags L U s p e &&& FERRE_FAIL ≠ 0) ↔
      (FV.eqv p (FV.fin (-999)) || FV.lt e (FV.fin (-1/100)) || !p.isFinite)
        = true := by
  unfold param_bitmask_flags flagFerreFail flagGridEdgeWarn flagGridEdgeBad
  split_ifs with h1 h2 h3 <;> simp_all <;> decide

/-- C6: Bitmask flag definition (`Ferre.post_execute`).  In the flag word of
a cell with value `p`, uncertainty `e`, grid bounds `L`/`U` and step `s`:
`GRIDEDGE_BAD` is set exactly when the value is below `L + s/8` or above
`U - s/8`; `GRIDEDGE_WARN` exactly when it is beyond the one-full-step
bounds; `FERRE_FAIL` exactly when the value equals the −999 sentinel, the
uncertainty is below −0.01, or the value is non-finite (NaN compares false
everywhere, so a NaN value sets only `FERRE_FAIL`); and the three steps
combine by bitwise OR, never clearing a bit that is already set. -/
theorem c6_bitmask_flag_definition (L U s : ℚ) (p e : FV) :
    ((param_bitmask_flags L U s p e &&& GRIDEDGE_BAD ≠ 0) ↔
      (∃ q, p = FV.fin q ∧ (q < L + s / 8 ∨ q > U - s / 8)))
    ∧ ((param_bitmask_flags L U s p e &&& GRIDEDGE_WARN ≠ 0) ↔
      (∃ q, p = FV.fin q ∧ (q < L + s ∨ q > U - s)))
    ∧ ((param_bitmask_flags L U s p e &&& FERRE_FAIL ≠ 0) ↔
      (p = FV.fin (-999) ∨ (∃ q, e = FV.fin q ∧ q < -1/100) ∨ p = FV.nan))
    ∧ (∀ m i, m.testBit i = true →
        (flagFerreFail p e (flagGridEdgeWarn L U s p
          (flagGridEdgeBad L U s p m))).testBit i = true) := by
  refine ⟨?_, ?_, ?_, ?_⟩
  · rw [param_bitmask_flags_bad_iff]
    cases p <;> simp [FV.lt]
  · rw [param_bitmask_flags_warn_iff]
    cases p <;> simp [FV.lt]
  · rw [param_bitmask_flags_fail_iff]
    cases p <;> cases e <;> simp [FV.lt, FV.eqv, FV.isFinite]
  · intro m i h
    unfold flagFerreFail flagGridEdgeWarn flagGridEdgeBad
    split_ifs <;> simp [Nat.testBit_or, h]

/-- C10: BAD implies WARN.  For a non-negative step size, any cell whose flag
word carries `GRIDEDGE_BAD` also carries `GRIDEDGE_WARN`: the one-eighth-step
edge region is contained in the one-step edge region. -/
theorem c10_bad_implies_warn (L U s : ℚ) (p e : FV) (hs : 0 ≤ s)
    (hbad : param_bitmask_flags L U s p e &&& GRIDEDGE_BAD ≠ 0) :
    param_bitmask_flags L U s p e &&& GRIDEDGE_WARN ≠ 0 := by
  rw [param_bitmask_flags_bad_iff] at hbad
  rw [param_bitmask_flags_warn_iff]
  cases p with
  | nan => simp [FV.lt] at hbad
  | fin q =>
    simp only [FV.lt, Bool.or_eq_true, decide_eq_true_eq] at hbad ⊢
    rcases hbad with h | h
    · exact Or.inl (by linarith)
    · exact Or.inr (by linarith)

/-- C10 witness: a value one-hundredth above the lower bound of a grid with
unit steps is flagged `GRIDEDGE_BAD`, hence also `GRIDEDGE_WARN`. -/
theorem c10_bad_implies_warn_witness :
    param_bitmask_flags 0 10 1 (FV.fin (1/100)) (FV.fin 1) &&& GRIDEDGE_WARN
      ≠ 0 :=
  c10_bad_implies_warn 0 10 1 (FV.fin (1/100)) (FV.fin 1) (by norm_num)
    ((param_bitmask_flags_bad_iff 0 10 1 (FV.fin (1/100)) (FV.fin 1)).mpr
      (by simp only [FV.lt, Bool.or_eq_true, decide_eq_true_eq]
          norm_num))

/-! ## Spike suppression (C8)

`Ferre.pre_execute` (contrib/ferre/base.py): when
`spike_threshold_to_inflate_uncertainty > 0`, compute per-row
`flux_median = np.median(flux)` and `flux_stddev = np.std(flux)`,
`delta = (flux - flux_median) / flux_stddev`, and force
`sigma[delta > threshold] = bad_pixel_sigma_value`.  One row of the
restricted (post-grid-mask) flux/sigma arrays is modelled. -/

/-- `np.median` of one row: middle element of the ascending sort, or the
mean of the two middle elements for an even pixel count (rows always have at
least one pixel). -/
def npMedian (l : List ℚ) : ℚ :=
  let s := List.insertionSort (fun a b : ℚ => a ≤ b) l
  let n := l.length
  if n = 0 then 0
  else if n % 2 = 1 then s.getD (n / 2) 0
  else (s.getD (n / 2 - 1) 0 + s.getD (n / 2) 0) / 2

/-- `np.mean` of one row. -/
def npMean (l : List ℚ) : ℚ := l.sum / l.length

/-- `np.var`: the mean squared deviation from the mean.  `np.std` is its
non-negative square root, characterised in the theorem by
`0 ≤ σ ∧ σ ^ 2 = npVar flux` rather than computed. -/
def npVar (l : List ℚ) : ℚ := npMean (l.map (fun x => (x - npMean l) ^ 2))

/-- IEEE semantics of `num / den > t` for exact inputs, as numpy evaluates
`delta > threshold`: division by a zero standard deviation yields `+inf`
(greater than every finite threshold) for a positive numerator, and `-inf`
or NaN (never greater) otherwise. -/
def fdivGT (num den t : ℚ) : Bool :=
  if den = 0 then decide (0 < num) else decide (t < num / den)

/-- The spike-suppression step on one row: pixels whose deviation from the
row median exceeds `threshold` row standard deviations get their sigma
forced to the bad-pixel sigma; with a non-positive threshold the step is
skipped. -/
def spikeAdjustSigma (threshold badSigma sigmaStd : ℚ)
    (flux sigma : List ℚ) : List ℚ :=
  if threshold > 0 then
    (flux.zip sigma).map
      (fun fs => if fdivGT (fs.1 - npMedian flux) sigmaStd threshold
        then badSigma else fs.2)
  else sigma

/-- C8: Spike suppression.  For a positive spike threshold `t` and the row
standard deviation `σ` (the non-negative square root of the row variance),
every pixel whose flux exceeds the row median by more than `t * σ` has its
output sigma equal to the bad-pixel sigma sentinel, and every other pixel
keeps the sigma produced by the earlier steps. -/
theorem c8_spike_suppression (t badSigma σ : ℚ) (flux sigma : List ℚ)
    (ht : 0 < t) (hσ0 : 0 ≤ σ) (hσ : σ ^ 2 = npVar flux)
    (pix : Nat) (f s : ℚ)
    (hf : flux.get? pix = some f) (hs : sigma.get? pix = some s) :
    (spikeAdjustSigma t badSigma σ flux sigma).get? pix =
      some (if f - npMedian flux > t * σ then badSigma else s) := by
  rw [spikeAdjustSigma, if_pos ht, List.get?_map,
    zip_get? flux sigma pix f s hf hs]
  have hcond : fdivGT (f - npMedian flux) σ t =
      decide (f - npMedian flux > t * σ) := by
    unfold fdivGT
    by_cases h0 : σ = 0
    · rw [if_pos h0, h0, mul_zero]
    · rw [if_neg h0]
      have hpos : 0 < σ := lt_of_le_of_ne hσ0 (Ne.symm h0)
      rw [decide_eq_decide, lt_div_iff hpos]
  simp only [Option.map_some']
  rw [hcond]
  simp

/-- C8 witness: a four-pixel row with median 1 and standard deviation 1;
pixel 1 sits one unit above the median, beyond half a standard deviation, so
its sigma becomes the sentinel. -/
theorem c8_spike_suppression_witness :
    (spikeAdjustSigma (1/2) (10 ^ 10) 1 [0, 2, 0, 2] [1, 1, 1, 1]).get? 1 =
      some (if (2 : ℚ) - npMedian [0, 2, 0, 2] > (1/2) * 1
        then (10 ^ 10 : ℚ) else 1) :=
  c8_spike_suppression (1/2) (10 ^ 10) 1 [0, 2, 0, 2] [1, 1, 1, 1]
    (by norm_num) (by norm_num) (by norm_num [npVar, npMean]) 1 2 1 rfl rfl

/-! ## Initial-parameter shape dispatch (C9)

`Ferre.pre_execute` (contrib/ferre/base.py): a value that is a length-`N`
list whose elements are all dicts supplies one dict per visit
(`initial_parameters_as_dicts.extend(initial_parameters)`); any other value
— a single dict, but also a list of the wrong length — is replicated for
every visit (`initial_parameters_as_dicts.extend([initial_parameters] * N)`).
There is no rejection branch in this code. -/

/-- A Python value as this dispatch can see it: a dict (entries keyed by
strings), a list, or a string (a dict key, seen when iterating a dict). -/
inductive PyVal
  | pdict (entries : List (List Char × ℚ)) : PyVal
  | plist (elems : List PyVal) : PyVal
  | pystr (s : List Char) : PyVal

/-- Python `len`. -/
def pyLen : PyVal → Nat
  | .pdict es => es.length
  | .plist es => es.length
  | .pystr s => s.length

/-- `isinstance(x, dict)`. -/
def pyIsDict : PyVal → Bool
  | .pdict _ => true
  | _ => false

/-- Iterating a Python value: a dict yields its keys, a list its elements, a
string its one-character substrings. -/
def pyIterElems : PyVal → List PyVal
  | .pdict es => es.map (fun e => .pystr e.1)
  | .plist es => es
  | .pystr s => s.map (fun c => .pystr [c])

/-- The shape dispatch of `Ferre.pre_execute`:
`if len(initial_parameters) == N and all(isinstance(_, dict) for _ in
initial_parameters): extend(initial_parameters) else:
extend([initial_parameters] * N)`. -/
def parse_initial_parameters (N : Nat) (ip : PyVal) : List PyVal :=
  if pyLen ip = N ∧ (pyIterElems ip).all pyIsDict = true then pyIterElems ip
  else List.replicate N ip

/-- C9, counterexample to the claim as stated: a list of two dicts offered
for three visits is not rejected — the dispatch silently reinterprets it,
assigning the (non-dict) list itself to every one of the three visits. -/
theorem c9_shape_counterexample :
    parse_initial_parameters 3 (PyVal.plist [PyVal.pdict [], PyVal.pdict []])
      = [PyVal.plist [PyVal.pdict [], PyVal.pdict []],
        PyVal.plist [PyVal.pdict [], PyVal.pdict []],
        PyVal.plist [PyVal.pdict [], PyVal.pdict []]]
    ∧ pyIsDict (PyVal.plist [PyVal.pdict [], PyVal.pdict []]) = false :=
  ⟨rfl, rfl⟩

/-- C9 (amended).  The dispatch accepts a single dict (applied identically
to every one of the `N` visits) and a list of exactly `N` dicts (one per
visit); a list whose length differs from `N`, or whose elements are not all
dicts, is NOT rejected: it is silently replicated as the per-visit value,
exactly like a single dict.  No shape is rejected at this stage. -/
theorem c9_initial_label_shapes (N : Nat) (ip : PyVal) (es : List PyVal) :
    (pyIsDict ip = true → parse_initial_parameters N ip = List.replicate N ip)
    ∧ (ip = PyVal.plist es → es.all pyIsDict = true → es.length = N →
        parse_initial_parameters N ip = es)
    ∧ (ip = PyVal.plist es → es.length ≠ N →
        parse_initial_parameters N ip = List.replicate N ip)
    ∧ (ip = PyVal.plist es → es.all pyIsDict = false →
        parse_initial_parameters N ip = List.replicate N ip) := by
  refine ⟨?_, ?_, ?_, ?_⟩
  · intro hdict
    cases ip with
    | pdict entries =>
      by_cases hcond : pyLen (PyVal.pdict entries) = N ∧
          (pyIterElems (PyVal.pdict entries)).all pyIsDict = true
      · obtain ⟨hlen, hall⟩ := hcond
        cases entries with
        | nil =>
          simp only [pyLen, List.length_nil] at hlen
          rw [parse_initial_parameters,
            if_pos ⟨by simp [pyLen, ← hlen], by simp [pyIterElems]⟩]
          rw [← hlen]
          rfl
        | cons e es' =>
          exfalso
          simp [pyIterElems, pyIsDict] at hall
      · rw [parse_initial_parameters, if_neg hcond]
    | plist elems => simp [pyIsDict] at hdict
    | pystr s => simp [pyIsDict] at hdict
  · rintro rfl hall hlen
    rw [parse_initial_parameters,
      if_pos ⟨by simpa [pyLen] using hlen, by simpa [pyIterElems] using hall⟩]
    rfl
  · rintro rfl hlen
    rw [parse_initial_parameters, if_neg]
    rintro ⟨h1, _⟩
    exact hlen (by simpa [pyLen] using h1)
  · rintro rfl hall
    rw [parse_initial_parameters, if_neg]
    rintro ⟨_, h2⟩
    rw [show pyIterElems (PyVal.plist es) = es from rfl] at h2
    rw [h2] at hall
    exact Bool.noConfusion hall

/-- C9 witness: a list of exactly two dicts for two visits is used one per
visit. -/
theorem c9_initial_label_shapes_witness :
    parse_initial_parameters 2 (PyVal.plist [PyVal.pdict [], PyVal.pdict []])
      = [PyVal.pdict [], PyVal.pdict []] :=
  (c9_initial_label_shapes 2
    (PyVal.plist [PyVal.pdict [], PyVal.pdict []])
    [PyVal.pdict [], PyVal.pdict []]).2.1 rfl rfl rfl



